import Mathlib

/-!
Verification of the term-utility and interval-counter layer declared in
erts/emulator/beam/erl_utils.h.

The header exposes two components:
* the interval counter (erts_interval_t) with step / ensure-later / current
  operations in several memory-ordering variants, and
* the generic term operations: equality (eq / EQ), total-order comparison
  (cmp), the two hashes (make_hash2 / make_hash2_init / make_broken_hash),
  and the two-pass term builders (erts_bld_*).

Only the inline parts of the counter (the ARCH_32 double-word decoder and the
non-SMP smp_current readers) and the EQ macro carry code in the header; the
remaining operations are declarations whose bodies live elsewhere in the
tree.  Those are modelled here from the specification, as marked on each
definition.
-/

namespace Erl

/-! ## Interval counter -/

/-- Modelled from the spec: the implementations of erts_step_interval_nob and
its relb variant are not in the header.  The spec (section 4.1) states that
step atomically increments the counter by 1 and returns the *new* value.  The
counter state is modelled as its 64-bit value (a Nat); the result pair is
(new counter state, returned value). -/
def erts_step_interval_nob (c : Nat) : Nat × Nat := (c + 1, c + 1)

/-- Modelled from the spec: the release-barrier variant performs the same
increment; the barrier has no sequential content. -/
def erts_step_interval_relb (c : Nat) : Nat × Nat := erts_step_interval_nob c

/-- Modelled from the spec: ensure_later(target) advances the counter to at
least target + 1, performing no write when the counter already exceeds
target.  The result pair is (new counter state, returned value). -/
def erts_ensure_later_interval_nob (c target : Nat) : Nat × Nat :=
  if target < c then (c, c) else (target + 1, target + 1)

/-- Modelled from the spec: the acquire-barrier variant performs the same
advance; the barrier has no sequential content. -/
def erts_ensure_later_interval_acqb (c target : Nat) : Nat × Nat :=
  erts_ensure_later_interval_nob c target

/-- Operations that mutate the counter, for stating monotonicity over
arbitrary call sequences. -/
inductive IntervalOp where
  | step : IntervalOp
  | ensure_later : Nat → IntervalOp

/-- Result counter state after one mutating operation. -/
def applyOp (c : Nat) : IntervalOp → Nat
  | .step => (erts_step_interval_nob c).1
  | .ensure_later target => (erts_ensure_later_interval_nob c target).1

/-- Counter state after a sequence of mutating operations. -/
def runOps (c : Nat) (ops : List IntervalOp) : Nat := ops.foldl applyOp c

/-! ## ARCH_32 double-word decoding (erl_utils.h lines 65-77) -/

/-- Double-word atomic value as two signed words, following erts_dw_aint_t:
sint_high models sint[ERTS_DW_AINT_HIGH_WORD] and sint_low models
sint[ERTS_DW_AINT_LOW_WORD]. -/
structure erts_dw_aint_t where
  sint_high : Int
  sint_low : Int

/-- C cast (Uint32) of a signed word: value modulo 2^32, as in the casts on
lines 72 and 74 of the header. -/
def uint32_of (i : Int) : Nat := (i % (2 ^ 32)).toNat

/-- Embedding of erts_interval_dw_aint_to_val__ in its
ETHR_SU_DW_NAINT_T__-undefined branch (erl_utils.h lines 71-75):
res = (Uint32) high; res <<= 32; res |= (Uint32) low. -/
def erts_interval_dw_aint_to_val__ (dw : erts_dw_aint_t) : Nat :=
  let res : Nat := uint32_of dw.sint_high
  let res : Nat := res <<< 32
  res ||| uint32_of dw.sint_low

/-- Canonical split of a 64-bit value into its high and low 32-bit halves,
the encoding whose inverse the decoder is claimed to be. -/
def dw_aint_of_val (v : Nat) : erts_dw_aint_t :=
  { sint_high := ((v / 2 ^ 32 : Nat) : Int), sint_low := ((v % 2 ^ 32 : Nat) : Int) }

/-! ## Non-SMP smp_current readers (erl_utils.h lines 119-139) -/

/-- Counter record as seen by the non-SMP configuration: the union's plain
not_atomic field is the live representation.  The smp_api flag is the
DEBUG-only field used by the ASSERTs. -/
structure erts_interval_t where
  smp_api : Bool
  not_atomic : Nat

/-- Embedding of erts_smp_current_interval_nob without ERTS_SMP (line 126):
returns icp->counter.not_atomic. -/
def erts_smp_current_interval_nob (icp : erts_interval_t) : Nat :=
  icp.not_atomic

/-- Embedding of erts_smp_current_interval_acqb without ERTS_SMP (line 137):
returns icp->counter.not_atomic. -/
def erts_smp_current_interval_acqb (icp : erts_interval_t) : Nat :=
  icp.not_atomic

/-! ## Term model

Modelled from the spec (section 3): the tagged, immutable, recursive value
universe, restricted to the shapes the spec names explicitly: small integers,
arbitrary-precision integers, boxed floats, atoms, nil, pairs and tuples.  A
boxed float is represented by its canonical numeric value, a rational, since
the spec (sections 4.2, 4.3) requires floats to hash and compare by canonical
numeric value; NaN floats are excluded because the spec (section 9) leaves
the NaN policy an explicit open question. -/

mutual

inductive Term where
  | small : Int → Term
  | big : Int → Term
  | flt : Rat → Term
  | atom : Nat → Term
  | nil : Term
  | cons : Term → Term → Term
  | tuple : TList → Term

inductive TList where
  | tnil : TList
  | tcons : Term → TList → TList

end

/-- Arity of a tuple element list. -/
def tlen : TList → Nat
  | .tnil => 0
  | .tcons _ xs => tlen xs + 1

/-- Three-way sign comparison on mathematical integers. -/
def cmpI (i j : Int) : Int := if i < j then -1 else if j < i then 1 else 0

/-- Three-way sign comparison on rationals. -/
def cmpQ (p q : Rat) : Int := if p < q then -1 else if q < p then 1 else 0

/-- Three-way sign comparison on naturals. -/
def cmpN (m n : Nat) : Int := if m < n then -1 else if n < m then 1 else 0

/-- Modelled from the spec (section 4.3): each type occupies a disjoint rank
segment of the total order; all numeric representations share one rank. -/
def rank : Term → Nat
  | .small _ => 0
  | .big _ => 0
  | .flt _ => 0
  | .atom _ => 1
  | .tuple _ => 2
  | .nil => 3
  | .cons _ _ => 4

mutual

/-- Modelled from the spec: the body of eq (declared at erl_utils.h line 190)
is not in the header.  Structural equality with cross-representation numeric
equality by mathematical value (spec sections 3, 4.3). -/
def eq : Term → Term → Bool
  | .small i, .small j => decide (i = j)
  | .small i, .big j => decide (i = j)
  | .small i, .flt q => decide ((i : Rat) = q)
  | .big i, .small j => decide (i = j)
  | .big i, .big j => decide (i = j)
  | .big i, .flt q => decide ((i : Rat) = q)
  | .flt p, .small j => decide (p = (j : Rat))
  | .flt p, .big j => decide (p = (j : Rat))
  | .flt p, .flt q => decide (p = q)
  | .atom a, .atom b => decide (a = b)
  | .nil, .nil => true
  | .cons h1 t1, .cons h2 t2 => eq h1 h2 && eq t1 t2
  | .tuple xs, .tuple ys => eql xs ys
  | _, _ => false

/-- Element-wise equality of tuple element lists. -/
def eql : TList → TList → Bool
  | .tnil, .tnil => true
  | .tcons x xs, .tcons y ys => eq x y && eql xs ys
  | _, _ => false

end

mutual

/-- Modelled from the spec: the body of cmp (declared at erl_utils.h line
200) is not in the header.  Total-order comparison returning a negative,
zero or positive integer: numeric types compare by mathematical value inside
one shared rank, other types compare by rank first and then by value, tuples
by arity and then lexicographically, pairs lexicographically (spec sections
3, 4.3). -/
def cmp : Term → Term → Int
  | .small i, .small j => cmpI i j
  | .small i, .big j => cmpI i j
  | .small i, .flt q => cmpQ (i : Rat) q
  | .big i, .small j => cmpI i j
  | .big i, .big j => cmpI i j
  | .big i, .flt q => cmpQ (i : Rat) q
  | .flt p, .small j => cmpQ p (j : Rat)
  | .flt p, .big j => cmpQ p (j : Rat)
  | .flt p, .flt q => cmpQ p q
  | .atom a, .atom b => cmpN a b
  | .nil, .nil => 0
  | .cons h1 t1, .cons h2 t2 => if cmp h1 h2 = 0 then cmp t1 t2 else cmp h1 h2
  | .tuple xs, .tuple ys =>
      if tlen xs = tlen ys then cmpl xs ys else cmpN (tlen xs) (tlen ys)
  | a, b => cmpN (rank a) (rank b)

/-- Lexicographic comparison of tuple element lists. -/
def cmpl : TList → TList → Int
  | .tnil, .tnil => 0
  | .tnil, .tcons _ _ => -1
  | .tcons _ _, .tnil => 1
  | .tcons x xs, .tcons y ys => if cmp x y = 0 then cmpl xs ys else cmp x y

end

/-! ## Hashing -/

/-- Mixing step of the quality hash.  Modelled from the spec: the exact
mixing constants are left open (section 9); the hash must be a 32-bit digest
combining a type discriminant with recursively hashed substructure using an
order-sensitive mixing function (section 4.2). -/
def mix (h x : Nat) : Nat := ((h * 16777619) ^^^ x) % 2 ^ 32

/-- Injection of a mathematical integer into the naturals for mixing. -/
def intEnc (i : Int) : Nat := if i < 0 then 2 * i.natAbs + 1 else 2 * i.natAbs

/-- Encoding of a canonical numeric value for hashing: numbers hash through
this single encoding regardless of their representation. -/
def ratEnc (q : Rat) : Nat := mix (intEnc q.num) q.den

mutual

/-- Modelled from the spec: the body of make_hash2 (declared at erl_utils.h
line 155) is not in the header.  Recursive accumulator-style hash; all three
numeric representations hash their canonical numeric value under one
discriminant, as section 4.2 requires. -/
def hash2 (h : Nat) : Term → Nat
  | .small i => mix (mix h 1) (ratEnc (i : Rat))
  | .big i => mix (mix h 1) (ratEnc (i : Rat))
  | .flt q => mix (mix h 1) (ratEnc q)
  | .atom a => mix (mix h 2) a
  | .nil => mix h 3
  | .cons x y => hash2 (hash2 (mix h 4) x) y
  | .tuple xs => hash2l (mix (mix h 5) (tlen xs)) xs

/-- Accumulator-style hash of a tuple element list. -/
def hash2l (h : Nat) : TList → Nat
  | .tnil => h
  | .tcons x xs => hash2l (hash2 h x) xs

end

/-- Modelled from the spec: make_hash2 runs the quality hash from a fixed
initial value. -/
def make_hash2 (t : Term) : Nat := hash2 2166136261 t

/-- Modelled from the spec: make_hash2_init runs the quality hash from a
caller-supplied initial value (seed). -/
def make_hash2_init (t : Term) (initval : Nat) : Nat := hash2 initval t

/-- Mixing step of the legacy hash, with a distinct frozen constant
sequence (spec section 4.2). -/
def bmix (h x : Nat) : Nat := (h * 268440161 + x) % 2 ^ 32

mutual

/-- Modelled from the spec: the body of make_broken_hash (declared at
erl_utils.h line 153) is not in the header.  Legacy hash with the same
equal-implies-equal-hash contract and its own mixing sequence; numbers hash
their canonical numeric value. -/
def broken (h : Nat) : Term → Nat
  | .small i => bmix (bmix h 11) (ratEnc (i : Rat))
  | .big i => bmix (bmix h 11) (ratEnc (i : Rat))
  | .flt q => bmix (bmix h 11) (ratEnc q)
  | .atom a => bmix (bmix h 12) a
  | .nil => bmix h 13
  | .cons x y => broken (broken (bmix h 14) x) y
  | .tuple xs => brokenl (bmix (bmix h 15) (tlen xs)) xs

/-- Legacy hash of a tuple element list. -/
def brokenl (h : Nat) : TList → Nat
  | .tnil => h
  | .tcons x xs => brokenl (broken h x) xs

end

/-- Modelled from the spec: make_broken_hash takes no seed. -/
def make_broken_hash (t : Term) : Nat := broken 0 t

/-! ## The EQ macro (erl_utils.h line 194) -/

/-- Immediate terms: represented as a single tagged machine word without
heap allocation (spec glossary): small integers, atoms and nil in this
model; bignums, floats, pairs and tuples are boxed. -/
def is_immed : Term → Bool
  | .small _ => true
  | .atom _ => true
  | .nil => true
  | _ => false

/-- Modelled from the spec: is_not_both_immed comes from the term layer
outside this header; it holds unless both arguments are immediate. -/
def is_not_both_immed (x y : Term) : Bool := !(is_immed x && is_immed y)

/-- Embedding of the EQ macro (erl_utils.h line 194):
EQ(x,y) = ((x) == (y)) || (is_not_both_immed((x),(y)) && eq((x),(y))).
Machine-word identity is modelled as term identity, which is exact on
immediates since an immediate is its tagged word. -/
def EQ (x y : Term) : Prop :=
  x = y ∨ (is_not_both_immed x y = true ∧ eq x y = true)

/-! ## Two-pass builders -/

mutual

/-- Build specifications for the constructible shapes.  Modelled from the
spec (section 4.4): atom corresponds to erts_bld_atom, uint to
erts_bld_uint, cons to erts_bld_cons, tuple to erts_bld_tuple and
erts_bld_tuplev, list to erts_bld_list. -/
inductive Bld where
  | atom : Nat → Bld
  | uint : Nat → Bld
  | cons : Bld → Bld → Bld
  | tuple : BldList → Bld
  | list : BldList → Bld

inductive BldList where
  | bnil : BldList
  | bcons : Bld → BldList → BldList

end

/-- Number of element specifications in a build list. -/
def blen : BldList → Nat
  | .bnil => 0
  | .bcons _ bs => blen bs + 1

/-- Modelled from the spec: the largest unsigned value still representable
as an immediate small; larger magnitudes are boxed (section 4.4). -/
def max_small : Nat := 2 ^ 59 - 1

mutual

/-- Modelled from the spec: the sizing pass of the erts_bld_* builders (the
szp-only call), giving the heap words the corresponding build consumes: an
atom or an immediate-fitting unsigned needs no heap words, a boxed unsigned
a bignum header plus one digit, a cons cell two words, a tuple a header word
plus its arity, a built list one cons cell per element (section 4.4). -/
def erts_bld_sz : Bld → Nat
  | .atom _ => 0
  | .uint n => if n ≤ max_small then 0 else 2
  | .cons a b => erts_bld_sz a + erts_bld_sz b + 2
  | .tuple es => erts_bld_szl es + (blen es + 1)
  | .list es => erts_bld_szl es + 2 * blen es

/-- Sizing pass over a build list. -/
def erts_bld_szl : BldList → Nat
  | .bnil => 0
  | .bcons b bs => erts_bld_sz b + erts_bld_szl bs

end

/-- View of a term list as a cons-built term. -/
def tlist_to_term : TList → Term
  | .tnil => Term.nil
  | .tcons x xs => Term.cons x (tlist_to_term xs)

mutual

/-- Modelled from the spec: the materialization pass of the erts_bld_*
builders (the hpp call): takes the arena cursor, returns the built term and
the advanced cursor (section 4.4). -/
def erts_bld : Bld → Nat → Term × Nat
  | .atom a, hp => (Term.atom a, hp)
  | .uint n, hp =>
      if n ≤ max_small then (Term.small n, hp) else (Term.big n, hp + 2)
  | .cons a b, hp =>
      let ra := erts_bld a hp
      let rb := erts_bld b ra.2
      (Term.cons ra.1 rb.1, rb.2 + 2)
  | .tuple es, hp =>
      let r := erts_bldl es hp
      (Term.tuple r.1, r.2 + (blen es + 1))
  | .list es, hp =>
      let r := erts_bldl es hp
      (tlist_to_term r.1, r.2 + 2 * blen es)

/-- Materialization pass over a build list. -/
def erts_bldl : BldList → Nat → TList × Nat
  | .bnil, hp => (TList.tnil, hp)
  | .bcons b bs, hp =>
      let r := erts_bld b hp
      let rs := erts_bldl bs r.2
      (TList.tcons r.1 rs.1, rs.2)

end

end Erl

/-! ## Theorems -/

/-- Auxiliary monotonicity of a single mutating counter operation. -/
theorem le_applyOp (c : Nat) (op : Erl.IntervalOp) : c ≤ Erl.applyOp c op := by
  cases op with
  | step => exact Nat.le_succ c
  | ensure_later target =>
      unfold Erl.applyOp Erl.erts_ensure_later_interval_nob
      by_cases h : target < c
      · simp [h]
      · simp [h]; omega

/-- Auxiliary monotonicity of a sequence of mutating counter operations. -/
theorem le_runOps (ops : List Erl.IntervalOp) (c : Nat) : c ≤ Erl.runOps c ops := by
  induction ops generalizing c with
  | nil => exact Nat.le_refl c
  | cons op ops ih =>
      exact Nat.le_trans (le_applyOp c op) (ih (Erl.applyOp c op))

/-- C3: after ensure_later(target) the counter is strictly greater than
target (hence at least target + 1), for both ordering variants; and when the
counter already exceeds target the operation performs no write, leaving the
counter state unchanged. -/
theorem ensure_later_exceeds_target (c target : Nat) :
    target < (Erl.erts_ensure_later_interval_nob c target).1 ∧
    target < (Erl.erts_ensure_later_interval_acqb c target).1 ∧
    (target < c →
      (Erl.erts_ensure_later_interval_nob c target).1 = c ∧
      (Erl.erts_ensure_later_interval_acqb c target).1 = c) := by
  unfold Erl.erts_ensure_later_interval_acqb Erl.erts_ensure_later_interval_nob
  by_cases h : target < c
  · simp [h]
  · simp [h]

/-- Witness for C3 at counter 7, target 3. -/
theorem ensure_later_exceeds_target_witness :
    3 < (Erl.erts_ensure_later_interval_nob 7 3).1 ∧
    (Erl.erts_ensure_later_interval_nob 7 3).1 = 7 :=
  ⟨(ensure_later_exceeds_target 7 3).1,
   ((ensure_later_exceeds_target 7 3).2.2 (by decide)).1⟩

/-- C4: step sets the counter from v to v + 1 and returns the new value
v + 1 (which differs from the old value v), in both the nob and relb
variants. -/
theorem step_interval_returns_new_value (v : Nat) :
    Erl.erts_step_interval_nob v = (v + 1, v + 1) ∧
    Erl.erts_step_interval_relb v = (v + 1, v + 1) ∧
    (Erl.erts_step_interval_nob v).2 ≠ v := by
  refine ⟨rfl, rfl, ?_⟩
  simp [Erl.erts_step_interval_nob]

/-- Witness for C4 at counter value 5. -/
theorem step_interval_returns_new_value_witness :
    Erl.erts_step_interval_nob 5 = (6, 6) :=
  (step_interval_returns_new_value 5).1

/-- C5: the counter is monotonically non-decreasing: along any sequence of
step and ensure_later operations, the value read after a prefix of the
sequence never exceeds the value read after any longer prefix. -/
theorem interval_counter_monotone (c : Nat) (pre post : List Erl.IntervalOp) :
    Erl.runOps c pre ≤ Erl.runOps c (pre ++ post) := by
  unfold Erl.runOps
  rw [List.foldl_append]
  exact le_runOps post (List.foldl Erl.applyOp c pre)

/-- C8: the ARCH_32 decoder without a native double-word integer rebuilds the
64-bit value as (high << 32) | low, and is the inverse of splitting a 64-bit
value into its high and low 32-bit halves. -/
theorem dw_aint_to_val_inverts_split (v : Nat) (hv : v < 2 ^ 64) :
    Erl.erts_interval_dw_aint_to_val__ (Erl.dw_aint_of_val v) = v := by
  unfold Erl.erts_interval_dw_aint_to_val__ Erl.dw_aint_of_val Erl.uint32_of
  have hlow : v % 2 ^ 32 < 2 ^ 32 := Nat.mod_lt v (by norm_num)
  have hhigh : v / 2 ^ 32 < 2 ^ 32 := by
    have h : v < 2 ^ 32 * 2 ^ 32 := by norm_num at hv ⊢; omega
    exact Nat.div_lt_of_lt_mul h
  have epow : (2 : Int) ^ 32 = 4294967296 := by norm_num
  have epown : (2 : Nat) ^ 32 = 4294967296 := by norm_num
  have ehigh : ((((v / 2 ^ 32 : Nat) : Int)) % 2 ^ 32).toNat = v / 2 ^ 32 := by
    rw [epow, epown] at *
    omega
  have elow : ((((v % 2 ^ 32 : Nat) : Int)) % 2 ^ 32).toNat = v % 2 ^ 32 := by
    rw [epow, epown] at *
    omega
  simp only [ehigh, elow]
  rw [Nat.shiftLeft_eq, Nat.mul_comm, ← Nat.mul_add_lt_is_or hlow]
  exact Nat.div_add_mod v (2 ^ 32)

/-- Witness for C8 at the value 0x0123456789ABCDEF. -/
theorem dw_aint_to_val_inverts_split_witness :
    81985529216486895 < 2 ^ 64 ∧
    Erl.erts_interval_dw_aint_to_val__ (Erl.dw_aint_of_val 81985529216486895) =
      81985529216486895 :=
  ⟨by norm_num, dw_aint_to_val_inverts_split 81985529216486895 (by norm_num)⟩

/-- C9: in a build without ERTS_SMP, erts_smp_current_interval_nob and
erts_smp_current_interval_acqb both return the plain not_atomic field, so the
two ordering variants are extensionally equal on every counter state. -/
theorem smp_current_interval_nob_eq_acqb (icp : Erl.erts_interval_t) :
    Erl.erts_smp_current_interval_nob icp = Erl.erts_smp_current_interval_acqb icp ∧
    Erl.erts_smp_current_interval_nob icp = icp.not_atomic :=
  ⟨rfl, rfl⟩

/-- Auxiliary characterisation: the integer three-way comparison is zero
exactly on equal arguments. -/
theorem cmpI_eq_zero_iff (i j : Int) : Erl.cmpI i j = 0 ↔ i = j := by
  unfold Erl.cmpI
  split_ifs <;> constructor <;> intro h <;> first | exact h.elim | omega

/-- Auxiliary characterisation: the natural three-way comparison is zero
exactly on equal arguments. -/
theorem cmpN_eq_zero_iff (m n : Nat) : Erl.cmpN m n = 0 ↔ m = n := by
  unfold Erl.cmpN
  split_ifs <;> constructor <;> intro h <;> first | exact h.elim | omega

/-- Auxiliary characterisation: the rational three-way comparison is zero
exactly on equal arguments. -/
theorem cmpQ_eq_zero_iff (p q : Rat) : Erl.cmpQ p q = 0 ↔ p = q := by
  unfold Erl.cmpQ
  split_ifs with h1 h2
  · exact iff_of_false (by norm_num) (fun he => absurd h1 (by simp [he]))
  · exact iff_of_false (by norm_num) (fun he => absurd h2 (by simp [he]))
  · exact iff_of_true rfl (le_antisymm (not_lt.mp h2) (not_lt.mp h1))

/-- Auxiliary fact: element-wise equal tuple element lists have the same
arity. -/
theorem eql_tlen : ∀ xs ys : Erl.TList, Erl.eql xs ys = true →
    Erl.tlen xs = Erl.tlen ys
  | .tnil, .tnil, _ => rfl
  | .tnil, .tcons _ _, h => by simp [Erl.eql] at h
  | .tcons _ _, .tnil, h => by simp [Erl.eql] at h
  | .tcons x xs, .tcons y ys, h => by
      simp only [Erl.eql, Bool.and_eq_true] at h
      simp [Erl.tlen, eql_tlen xs ys h.2]

mutual

/-- Auxiliary equivalence of structural equality and zero comparison,
proved by mutual structural induction with the tuple-element-list case. -/
theorem eq_iff_cmp (a b : Erl.Term) : Erl.eq a b = true ↔ Erl.cmp a b = 0 := by
  cases a with
  | small i =>
      cases b with
      | small j => simp [Erl.eq, Erl.cmp, cmpI_eq_zero_iff]
      | big j => simp [Erl.eq, Erl.cmp, cmpI_eq_zero_iff]
      | flt q => simp [Erl.eq, Erl.cmp, cmpQ_eq_zero_iff]
      | atom n => simp [Erl.eq, Erl.cmp, Erl.eql, Erl.cmpl, Erl.rank, Erl.cmpN]
      | nil => simp [Erl.eq, Erl.cmp, Erl.eql, Erl.cmpl, Erl.rank, Erl.cmpN]
      | cons h2 t2 => simp [Erl.eq, Erl.cmp, Erl.eql, Erl.cmpl, Erl.rank, Erl.cmpN]
      | tuple ys => simp [Erl.eq, Erl.cmp, Erl.eql, Erl.cmpl, Erl.rank, Erl.cmpN]
  | big i =>
      cases b with
      | small j => simp [Erl.eq, Erl.cmp, cmpI_eq_zero_iff]
      | big j => simp [Erl.eq, Erl.cmp, cmpI_eq_zero_iff]
      | flt q => simp [Erl.eq, Erl.cmp, cmpQ_eq_zero_iff]
      | atom n => simp [Erl.eq, Erl.cmp, Erl.eql, Erl.cmpl, Erl.rank, Erl.cmpN]
      | nil => simp [Erl.eq, Erl.cmp, Erl.eql, Erl.cmpl, Erl.rank, Erl.cmpN]
      | cons h2 t2 => simp [Erl.eq, Erl.cmp, Erl.eql, Erl.cmpl, Erl.rank, Erl.cmpN]
      | tuple ys => simp [Erl.eq, Erl.cmp, Erl.eql, Erl.cmpl, Erl.rank, Erl.cmpN]
  | flt p =>
      cases b with
      | small j => simp [Erl.eq, Erl.cmp, cmpQ_eq_zero_iff]
      | big j => simp [Erl.eq, Erl.cmp, cmpQ_eq_zero_iff]
      | flt q => simp [Erl.eq, Erl.cmp, cmpQ_eq_zero_iff]
      | atom n => simp [Erl.eq, Erl.cmp, Erl.eql, Erl.cmpl, Erl.rank, Erl.cmpN]
      | nil => simp [Erl.eq, Erl.cmp, Erl.eql, Erl.cmpl, Erl.rank, Erl.cmpN]
      | cons h2 t2 => simp [Erl.eq, Erl.cmp, Erl.eql, Erl.cmpl, Erl.rank, Erl.cmpN]
      | tuple ys => simp [Erl.eq, Erl.cmp, Erl.eql, Erl.cmpl, Erl.rank, Erl.cmpN]
  | atom a =>
      cases b with
      | small j => simp [Erl.eq, Erl.cmp, Erl.eql, Erl.cmpl, Erl.rank, Erl.cmpN]
      | big j => simp [Erl.eq, Erl.cmp, Erl.eql, Erl.cmpl, Erl.rank, Erl.cmpN]
      | flt q => simp [Erl.eq, Erl.cmp, Erl.eql, Erl.cmpl, Erl.rank, Erl.cmpN]
      | atom n => simp [Erl.eq, Erl.cmp, cmpN_eq_zero_iff]
      | nil => simp [Erl.eq, Erl.cmp, Erl.eql, Erl.cmpl, Erl.rank, Erl.cmpN]
      | cons h2 t2 => simp [Erl.eq, Erl.cmp, Erl.eql, Erl.cmpl, Erl.rank, Erl.cmpN]
      | tuple ys => simp [Erl.eq, Erl.cmp, Erl.eql, Erl.cmpl, Erl.rank, Erl.cmpN]
  | nil =>
      cases b with
      | small j => simp [Erl.eq, Erl.cmp, Erl.eql, Erl.cmpl, Erl.rank, Erl.cmpN]
      | big j => simp [Erl.eq, Erl.cmp, Erl.eql, Erl.cmpl, Erl.rank, Erl.cmpN]
      | flt q => simp [Erl.eq, Erl.cmp, Erl.eql, Erl.cmpl, Erl.rank, Erl.cmpN]
      | atom n => simp [Erl.eq, Erl.cmp, Erl.eql, Erl.cmpl, Erl.rank, Erl.cmpN]
      | nil => simp [Erl.eq, Erl.cmp]
      | cons h2 t2 => simp [Erl.eq, Erl.cmp, Erl.eql, Erl.cmpl, Erl.rank, Erl.cmpN]
      | tuple ys => simp [Erl.eq, Erl.cmp, Erl.eql, Erl.cmpl, Erl.rank, Erl.cmpN]
  | cons h1 t1 =>
      cases b with
      | small j => simp [Erl.eq, Erl.cmp, Erl.eql, Erl.cmpl, Erl.rank, Erl.cmpN]
      | big j => simp [Erl.eq, Erl.cmp, Erl.eql, Erl.cmpl, Erl.rank, Erl.cmpN]
      | flt q => simp [Erl.eq, Erl.cmp, Erl.eql, Erl.cmpl, Erl.rank, Erl.cmpN]
      | atom n => simp [Erl.eq, Erl.cmp, Erl.eql, Erl.cmpl, Erl.rank, Erl.cmpN]
      | nil => simp [Erl.eq, Erl.cmp, Erl.eql, Erl.cmpl, Erl.rank, Erl.cmpN]
      | cons h2 t2 =>
          have ih1 := eq_iff_cmp h1 h2
          have ih2 := eq_iff_cmp t1 t2
          simp only [Erl.eq, Erl.cmp, Bool.and_eq_true]
          by_cases hc : Erl.cmp h1 h2 = 0
          · simp [hc, ih1, ih2]
          · simp [hc, ih1, ih2]
      | tuple ys => simp [Erl.eq, Erl.cmp, Erl.eql, Erl.cmpl, Erl.rank, Erl.cmpN]
  | tuple xs =>
      cases b with
      | small j => simp [Erl.eq, Erl.cmp, Erl.eql, Erl.cmpl, Erl.rank, Erl.cmpN]
      | big j => simp [Erl.eq, Erl.cmp, Erl.eql, Erl.cmpl, Erl.rank, Erl.cmpN]
      | flt q => simp [Erl.eq, Erl.cmp, Erl.eql, Erl.cmpl, Erl.rank, Erl.cmpN]
      | atom n => simp [Erl.eq, Erl.cmp, Erl.eql, Erl.cmpl, Erl.rank, Erl.cmpN]
      | nil => simp [Erl.eq, Erl.cmp, Erl.eql, Erl.cmpl, Erl.rank, Erl.cmpN]
      | cons h2 t2 => simp [Erl.eq, Erl.cmp, Erl.eql, Erl.cmpl, Erl.rank, Erl.cmpN]
      | tuple ys =>
          have ihl := eql_iff_cmpl xs ys
          simp only [Erl.eq, Erl.cmp]
          by_cases hl : Erl.tlen xs = Erl.tlen ys
          · simp [hl, ihl]
          · simp only [if_neg hl]
            exact iff_of_false (fun he => hl (eql_tlen xs ys he))
              (fun hc => hl ((cmpN_eq_zero_iff _ _).mp hc))

/-- Auxiliary equivalence for tuple element lists. -/
theorem eql_iff_cmpl (xs ys : Erl.TList) :
    Erl.eql xs ys = true ↔ Erl.cmpl xs ys = 0 := by
  cases xs with
  | tnil =>
      cases ys with
      | tnil => simp [Erl.eql, Erl.cmpl]
      | tcons y ys => simp [Erl.eq, Erl.cmp, Erl.eql, Erl.cmpl, Erl.rank, Erl.cmpN]
  | tcons x xs =>
      cases ys with
      | tnil => simp [Erl.eq, Erl.cmp, Erl.eql, Erl.cmpl, Erl.rank, Erl.cmpN]
      | tcons y ys =>
          have ih1 := eq_iff_cmp x y
          have ih2 := eql_iff_cmpl xs ys
          simp only [Erl.eql, Erl.cmpl, Bool.and_eq_true]
          by_cases hc : Erl.cmp x y = 0
          · simp [hc, ih1, ih2]
          · simp [hc, ih1, ih2]

end

/-- C1: for every pair of terms, eq holds exactly when cmp returns zero: the
equality predicate and the zero case of the total-order comparison decide the
same relation on all terms. -/
theorem eq_agrees_with_cmp_zero (a b : Erl.Term) :
    Erl.eq a b = true ↔ Erl.cmp a b = 0 :=
  eq_iff_cmp a b

mutual

/-- Auxiliary congruence: the quality hash is invariant under eq, at every
accumulator value, proved by mutual structural induction. -/
theorem hash2_congr (a b : Erl.Term) (he : Erl.eq a b = true) (h : Nat) :
    Erl.hash2 h a = Erl.hash2 h b := by
  cases a with
  | small i =>
      cases b with
      | small j =>
          simp only [Erl.eq, decide_eq_true_eq] at he
          subst he; rfl
      | big j =>
          simp only [Erl.eq, decide_eq_true_eq] at he
          subst he; rfl
      | flt q =>
          simp only [Erl.eq, decide_eq_true_eq] at he
          simp only [Erl.hash2]
          rw [he]
      | atom n => simp [Erl.eq] at he
      | nil => simp [Erl.eq] at he
      | cons h2 t2 => simp [Erl.eq] at he
      | tuple ys => simp [Erl.eq] at he
  | big i =>
      cases b with
      | small j =>
          simp only [Erl.eq, decide_eq_true_eq] at he
          subst he; rfl
      | big j =>
          simp only [Erl.eq, decide_eq_true_eq] at he
          subst he; rfl
      | flt q =>
          simp only [Erl.eq, decide_eq_true_eq] at he
          simp only [Erl.hash2]
          rw [he]
      | atom n => simp [Erl.eq] at he
      | nil => simp [Erl.eq] at he
      | cons h2 t2 => simp [Erl.eq] at he
      | tuple ys => simp [Erl.eq] at he
  | flt p =>
      cases b with
      | small j =>
          simp only [Erl.eq, decide_eq_true_eq] at he
          simp only [Erl.hash2]
          rw [he]
      | big j =>
          simp only [Erl.eq, decide_eq_true_eq] at he
          simp only [Erl.hash2]
          rw [he]
      | flt q =>
          simp only [Erl.eq, decide_eq_true_eq] at he
          subst he; rfl
      | atom n => simp [Erl.eq] at he
      | nil => simp [Erl.eq] at he
      | cons h2 t2 => simp [Erl.eq] at he
      | tuple ys => simp [Erl.eq] at he
  | atom a =>
      cases b with
      | atom n =>
          simp only [Erl.eq, decide_eq_true_eq] at he
          subst he; rfl
      | small j => simp [Erl.eq] at he
      | big j => simp [Erl.eq] at he
      | flt q => simp [Erl.eq] at he
      | nil => simp [Erl.eq] at he
      | cons h2 t2 => simp [Erl.eq] at he
      | tuple ys => simp [Erl.eq] at he
  | nil =>
      cases b with
      | nil => rfl
      | small j => simp [Erl.eq] at he
      | big j => simp [Erl.eq] at he
      | flt q => simp [Erl.eq] at he
      | atom n => simp [Erl.eq] at he
      | cons h2 t2 => simp [Erl.eq] at he
      | tuple ys => simp [Erl.eq] at he
  | cons h1 t1 =>
      cases b with
      | cons h2 t2 =>
          simp only [Erl.eq, Bool.and_eq_true] at he
          simp only [Erl.hash2]
          rw [hash2_congr h1 h2 he.1 (Erl.mix h 4)]
          exact hash2_congr t1 t2 he.2 _
      | small j => simp [Erl.eq] at he
      | big j => simp [Erl.eq] at he
      | flt q => simp [Erl.eq] at he
      | atom n => simp [Erl.eq] at he
      | nil => simp [Erl.eq] at he
      | tuple ys => simp [Erl.eq] at he
  | tuple xs =>
      cases b with
      | tuple ys =>
          simp only [Erl.eq] at he
          simp only [Erl.hash2]
          rw [eql_tlen xs ys he]
          exact hash2l_congr xs ys he _
      | small j => simp [Erl.eq] at he
      | big j => simp [Erl.eq] at he
      | flt q => simp [Erl.eq] at he
      | atom n => simp [Erl.eq] at he
      | nil => simp [Erl.eq] at he
      | cons h2 t2 => simp [Erl.eq] at he

/-- Auxiliary congruence of the quality hash over tuple element lists. -/
theorem hash2l_congr (xs ys : Erl.TList) (he : Erl.eql xs ys = true) (h : Nat) :
    Erl.hash2l h xs = Erl.hash2l h ys := by
  cases xs with
  | tnil =>
      cases ys with
      | tnil => rfl
      | tcons y ys => simp [Erl.eql] at he
  | tcons x xs =>
      cases ys with
      | tnil => simp [Erl.eql] at he
      | tcons y ys =>
          simp only [Erl.eql, Bool.and_eq_true] at he
          simp only [Erl.hash2l]
          rw [hash2_congr x y he.1 h]
          exact hash2l_congr xs ys he.2 _

end
mutual

/-- Auxiliary congruence: the legacy hash is invariant under eq, at every
accumulator value, proved by mutual structural induction. -/
theorem broken_congr (a b : Erl.Term) (he : Erl.eq a b = true) (h : Nat) :
    Erl.broken h a = Erl.broken h b := by
  cases a with
  | small i =>
      cases b with
      | small j =>
          simp only [Erl.eq, decide_eq_true_eq] at he
          subst he; rfl
      | big j =>
          simp only [Erl.eq, decide_eq_true_eq] at he
          subst he; rfl
      | flt q =>
          simp only [Erl.eq, decide_eq_true_eq] at he
          simp only [Erl.broken]
          rw [he]
      | atom n => simp [Erl.eq] at he
      | nil => simp [Erl.eq] at he
      | cons h2 t2 => simp [Erl.eq] at he
      | tuple ys => simp [Erl.eq] at he
  | big i =>
      cases b with
      | small j =>
          simp only [Erl.eq, decide_eq_true_eq] at he
          subst he; rfl
      | big j =>
          simp only [Erl.eq, decide_eq_true_eq] at he
          subst he; rfl
      | flt q =>
          simp only [Erl.eq, decide_eq_true_eq] at he
          simp only [Erl.broken]
          rw [he]
      | atom n => simp [Erl.eq] at he
      | nil => simp [Erl.eq] at he
      | cons h2 t2 => simp [Erl.eq] at he
      | tuple ys => simp [Erl.eq] at he
  | flt p =>
      cases b with
      | small j =>
          simp only [Erl.eq, decide_eq_true_eq] at he
          simp only [Erl.broken]
          rw [he]
      | big j =>
          simp only [Erl.eq, decide_eq_true_eq] at he
          simp only [Erl.broken]
          rw [he]
      | flt q =>
          simp only [Erl.eq, decide_eq_true_eq] at he
          subst he; rfl
      | atom n => simp [Erl.eq] at he
      | nil => simp [Erl.eq] at he
      | cons h2 t2 => simp [Erl.eq] at he
      | tuple ys => simp [Erl.eq] at he
  | atom a =>
      cases b with
      | atom n =>
          simp only [Erl.eq, decide_eq_true_eq] at he
          subst he; rfl
      | small j => simp [Erl.eq] at he
      | big j => simp [Erl.eq] at he
      | flt q => simp [Erl.eq] at he
      | nil => simp [Erl.eq] at he
      | cons h2 t2 => simp [Erl.eq] at he
      | tuple ys => simp [Erl.eq] at he
  | nil =>
      cases b with
      | nil => rfl
      | small j => simp [Erl.eq] at he
      | big j => simp [Erl.eq] at he
      | flt q => simp [Erl.eq] at he
      | atom n => simp [Erl.eq] at he
      | cons h2 t2 => simp [Erl.eq] at he
      | tuple ys => simp [Erl.eq] at he
  | cons h1 t1 =>
      cases b with
      | cons h2 t2 =>
          simp only [Erl.eq, Bool.and_eq_true] at he
          simp only [Erl.broken]
          rw [broken_congr h1 h2 he.1 (Erl.bmix h 14)]
          exact broken_congr t1 t2 he.2 _
      | small j => simp [Erl.eq] at he
      | big j => simp [Erl.eq] at he
      | flt q => simp [Erl.eq] at he
      | atom n => simp [Erl.eq] at he
      | nil => simp [Erl.eq] at he
      | tuple ys => simp [Erl.eq] at he
  | tuple xs =>
      cases b with
      | tuple ys =>
          simp only [Erl.eq] at he
          simp only [Erl.broken]
          rw [eql_tlen xs ys he]
          exact brokenl_congr xs ys he _
      | small j => simp [Erl.eq] at he
      | big j => simp [Erl.eq] at he
      | flt q => simp [Erl.eq] at he
      | atom n => simp [Erl.eq] at he
      | nil => simp [Erl.eq] at he
      | cons h2 t2 => simp [Erl.eq] at he

/-- Auxiliary congruence of the legacy hash over tuple element lists. -/
theorem brokenl_congr (xs ys : Erl.TList) (he : Erl.eql xs ys = true) (h : Nat) :
    Erl.brokenl h xs = Erl.brokenl h ys := by
  cases xs with
  | tnil =>
      cases ys with
      | tnil => rfl
      | tcons y ys => simp [Erl.eql] at he
  | tcons x xs =>
      cases ys with
      | tnil => simp [Erl.eql] at he
      | tcons y ys =>
          simp only [Erl.eql, Bool.and_eq_true] at he
          simp only [Erl.brokenl]
          rw [broken_congr x y he.1 h]
          exact brokenl_congr xs ys he.2 _

end

/-- C2: structurally equal terms hash identically: eq a b implies equal
make_hash2 digests, equal make_hash2_init digests at every common seed, and
equal make_broken_hash digests. -/
theorem eq_implies_hashes_equal (a b : Erl.Term) (he : Erl.eq a b = true) :
    Erl.make_hash2 a = Erl.make_hash2 b ∧
    (∀ s, Erl.make_hash2_init a s = Erl.make_hash2_init b s) ∧
    Erl.make_broken_hash a = Erl.make_broken_hash b :=
  ⟨hash2_congr a b he 2166136261, fun s => hash2_congr a b he s,
   broken_congr a b he 0⟩

/-- Witness for C2 at the equal pair small 300 and float 300.0. -/
theorem eq_implies_hashes_equal_witness :
    Erl.eq (Erl.Term.small 300) (Erl.Term.flt 300) = true ∧
    Erl.make_hash2 (Erl.Term.small 300) = Erl.make_hash2 (Erl.Term.flt 300) :=
  ⟨by decide, (eq_implies_hashes_equal _ _ (by decide)).1⟩

/-- C6: the small integer 300, the bignum representation of 300 and the
float 300.0 all yield the same make_hash2 digest, because numbers hash by
canonical numeric value. -/
theorem hash2_of_300_representations_agree :
    Erl.make_hash2 (Erl.Term.small 300) = Erl.make_hash2 (Erl.Term.big 300) ∧
    Erl.make_hash2 (Erl.Term.big 300) = Erl.make_hash2 (Erl.Term.flt 300) := by
  constructor <;> decide

/-- C10: the EQ macro on immediates is word identity: identical terms
satisfy EQ, and for immediate x and y, EQ holds exactly when x equals y. -/
theorem EQ_on_immediates_is_identity (x y : Erl.Term) :
    (x = y → Erl.EQ x y) ∧
    (Erl.is_immed x = true → Erl.is_immed y = true → (Erl.EQ x y ↔ x = y)) := by
  constructor
  · intro h; exact Or.inl h
  · intro hx hy
    constructor
    · intro h
      cases h with
      | inl h => exact h
      | inr h =>
          exfalso
          have hni : Erl.is_not_both_immed x y = false := by
            unfold Erl.is_not_both_immed
            rw [hx, hy]
            rfl
          rw [hni] at h
          exact Bool.false_ne_true h.1
    · intro h; exact Or.inl h

/-- Witness for C10 at the immediate atom 0. -/
theorem EQ_on_immediates_is_identity_witness :
    Erl.EQ (Erl.Term.atom 0) (Erl.Term.atom 0) ∧
    (Erl.EQ (Erl.Term.atom 0) (Erl.Term.atom 0) ↔
      Erl.Term.atom 0 = Erl.Term.atom 0) :=
  ⟨(EQ_on_immediates_is_identity (Erl.Term.atom 0) (Erl.Term.atom 0)).1 rfl,
   (EQ_on_immediates_is_identity (Erl.Term.atom 0) (Erl.Term.atom 0)).2 rfl rfl⟩

mutual

/-- Auxiliary builder symmetry: the materialization pass advances the arena
cursor by exactly the sizing pass of the same specification. -/
theorem erts_bld_advances_by_sz (s : Erl.Bld) (hp : Nat) :
    (Erl.erts_bld s hp).2 = hp + Erl.erts_bld_sz s := by
  cases s with
  | atom a => simp [Erl.erts_bld, Erl.erts_bld_sz]
  | uint n =>
      by_cases h : n ≤ Erl.max_small <;>
        simp [Erl.erts_bld, Erl.erts_bld_sz, h]
  | cons a b =>
      have ha := erts_bld_advances_by_sz a hp
      have hb := erts_bld_advances_by_sz b (Erl.erts_bld a hp).2
      simp only [Erl.erts_bld, Erl.erts_bld_sz]
      rw [hb, ha]
      omega
  | tuple es =>
      have hl := erts_bldl_advances_by_szl es hp
      simp only [Erl.erts_bld, Erl.erts_bld_sz]
      rw [hl]
      omega
  | list es =>
      have hl := erts_bldl_advances_by_szl es hp
      simp only [Erl.erts_bld, Erl.erts_bld_sz]
      rw [hl]
      omega

/-- Auxiliary builder symmetry over build lists. -/
theorem erts_bldl_advances_by_szl (es : Erl.BldList) (hp : Nat) :
    (Erl.erts_bldl es hp).2 = hp + Erl.erts_bld_szl es := by
  cases es with
  | bnil => simp [Erl.erts_bldl, Erl.erts_bld_szl]
  | bcons b bs =>
      have h1 := erts_bld_advances_by_sz b hp
      have h2 := erts_bldl_advances_by_szl bs (Erl.erts_bld b hp).2
      simp only [Erl.erts_bldl, Erl.erts_bld_szl]
      rw [h2, h1]
      omega

end

/-- C7: builder symmetry: for every constructible shape, the sizing pass
computes exactly the number of heap words the materialization pass consumes,
at every starting cursor. -/
theorem bld_size_pass_matches_build (s : Erl.Bld) (hp : Nat) :
    (Erl.erts_bld s hp).2 = hp + Erl.erts_bld_sz s :=
  erts_bld_advances_by_sz s hp
